import Mathlib

/-!
Verification of the self-scaling worker pool in
`concurrent-parallel-async/custom-thread-pool.py`.

The Python module defines four classes:

* `BlockingQueue` — a lock-protected FIFO (`collections.deque`) with
  `enqueue` (append at the tail, `notify_all` when the size after the
  append is exactly 1, return that size) and `dequeue` (wait in a loop
  while empty, then `popleft`).
* `ThreadPool` — holds `min_workers`, `max_workers`, the queue and the
  worker roster; the constructor creates `min_workers` workers; `submit`
  enqueues the action and, when the returned queue size exceeds 5 and the
  roster is below `max_workers`, appends one more worker.
* `Sequence` — a lock-protected counter starting at 0 whose `next_value`
  increments and returns the new value.
* `WorkerThread` — named `Worker-{n}` from the class-wide `Sequence`;
  its `run` loop forever dequeues an action, looks the worker's name up
  in `_color_mapping` (a dict with exactly the keys `Worker-1` …
  `Worker-10`), prints, executes the action, prints again.

The embedding below is a shallow one: the deque becomes a `List`, locks
disappear (each locked region becomes one atomic state transformation),
the blocking `dequeue` returns `Option` (`none` = the caller stays
blocked), threads become explicit interleaving step relations, and the
side effect of `notify_all` becomes a returned `Bool` flag.
-/

namespace CustomThreadPool

/-- Foreground colors of the `colorama` library used by the program. -/
inductive Color where
  | blue
  | cyan
  | yellow
  | red
  | magenta
  | lightRed
  | lightGreen
  | lightBlue
  | lightMagenta
  | lightYellow
  | green
deriving DecidableEq, Repr

/-- Observable outcome of invoking a zero-argument action: it either
returns normally or raises an exception. -/
inductive Outcome where
  | ok
  | raises
deriving DecidableEq, Repr

/-- State of `BlockingQueue`: the contents of `self._queue`, head first
(the lock and condition variable have no state of their own in the
shallow embedding; every method body below is one atomic step). -/
structure BlockingQueue (α : Type) where
  queue : List α
deriving DecidableEq, Repr

/-- Embedding of `BlockingQueue.enqueue` (lines 34–40): append `action`
at the tail, read `current_size = len(self._queue)`, call `notify_all`
when `current_size == 1`, and return `current_size`.  The result is the
new queue state, the returned size, and a flag recording whether
`notify_all` was invoked. -/
def BlockingQueue.enqueue {α : Type} (q : BlockingQueue α) (action : α) :
    BlockingQueue α × Nat × Bool :=
  let queue := q.queue ++ [action]
  let current_size := queue.length
  (⟨queue⟩, current_size, current_size == 1)

/-- Embedding of `BlockingQueue.dequeue` (lines 42–46): while the queue
is empty the thread waits on the condition (no value is produced, so the
embedding returns `none`); otherwise `popleft` removes and returns the
head. -/
def BlockingQueue.dequeue {α : Type} (q : BlockingQueue α) :
    Option (α × BlockingQueue α) :=
  match q.queue with
  | [] => none
  | a :: rest => some (a, ⟨rest⟩)

/-- Enqueue a whole list of actions, one `enqueue` call per element, in
list order. -/
def BlockingQueue.enqueueAll {α : Type} (q : BlockingQueue α) (xs : List α) :
    BlockingQueue α :=
  xs.foldl (fun q a => (q.enqueue a).1) q

/-- Repeatedly `dequeue` until the queue is empty, collecting the
returned actions in the order they were handed out. -/
def BlockingQueue.dequeueAll {α : Type} : BlockingQueue α → List α
  | ⟨[]⟩ => []
  | ⟨a :: rest⟩ => a :: BlockingQueue.dequeueAll ⟨rest⟩

/-- State of `Sequence` (lines 66–75): the counter `self._current_value`,
initialised to 0. -/
structure Sequence where
  current_value : Nat
deriving DecidableEq, Repr

/-- Embedding of `Sequence.next_value` (lines 72–75): increment the
counter and return the new value, together with the updated state. -/
def Sequence.next_value (s : Sequence) : Nat × Sequence :=
  (s.current_value + 1, ⟨s.current_value + 1⟩)

/-- Values returned by `k` successive `next_value` calls, in call
order. -/
def Sequence.values (s : Sequence) : Nat → List Nat
  | 0 => []
  | k + 1 =>
      let r := s.next_value
      r.1 :: r.2.values k

/-- A `WorkerThread`, reduced to the state that outlives construction:
the number `n` drawn from the class-wide `Sequence`, which determines
the thread name `Worker-{n}`.  (The thread also stores a reference to
the shared queue; the queue is threaded explicitly through the step
relations below.) -/
structure WorkerThread where
  number : Nat
deriving DecidableEq, Repr

/-- Embedding of `WorkerThread.__init__` (lines 95–98): draw the next
sequence value for the thread name and start the thread.  Returns the
new worker and the advanced sequence state. -/
def WorkerThread.new (s : Sequence) : WorkerThread × Sequence :=
  let r := s.next_value
  (⟨r.1⟩, r.2)

/-- Embedding of `WorkerThread._color_mapping` (lines 82–93), the dict
from thread names to `colorama` colors.  Its keys are exactly the
strings `Worker-1` … `Worker-10`; since a worker's name is `Worker-{n}`
where `n` is its sequence number, the lookup `_color_mapping[self.name]`
is embedded as a partial map keyed by the worker number `n`.  A `none`
result is a `KeyError` in Python. -/
def WorkerThread.color_mapping : Nat → Option Color
  | 1 => some .blue
  | 2 => some .cyan
  | 3 => some .yellow
  | 4 => some .red
  | 5 => some .magenta
  | 6 => some .lightRed
  | 7 => some .lightGreen
  | 8 => some .lightBlue
  | 9 => some .lightMagenta
  | 10 => some .lightYellow
  | _ => none

/-- How a run of the worker loop ends in the fuel-bounded embedding of
`WorkerThread.run`. -/
inductive RunResult where
  | blocked
  | keyError
  | actionError
  | fuelOut
deriving DecidableEq, Repr

/-- Final observation of a fuel-bounded run of the worker loop: how it
ended, how many actions were fully executed, and what is left in the
queue. -/
structure RunOutcome where
  result : RunResult
  executed : Nat
  remaining : List Outcome
deriving DecidableEq, Repr

/-- Embedding of `WorkerThread.run` (lines 100–106) for a single worker
numbered `id` draining a queue on its own.  Each loop iteration:
`dequeue` the head (block forever — result `blocked` — if the queue is
empty), look the name up in `_color_mapping` (a missing key raises
`KeyError`, ending the loop with the dequeued action unexecuted),
invoke the action (an action that raises propagates out of the loop —
result `actionError`; the loop body has no try/except), and repeat.
`fuel` bounds the number of iterations of the otherwise infinite
`while True` loop. -/
def WorkerThread.run (id : Nat) : Nat → List Outcome → RunOutcome
  | 0, queue => ⟨.fuelOut, 0, queue⟩
  | _ + 1, [] => ⟨.blocked, 0, []⟩
  | fuel + 1, action :: rest =>
      match WorkerThread.color_mapping id with
      | none => ⟨.keyError, 0, rest⟩
      | some _ =>
          match action with
          | .raises => ⟨.actionError, 0, rest⟩
          | .ok =>
              let r := WorkerThread.run id fuel rest
              ⟨r.result, r.executed + 1, r.remaining⟩

/-- State of `ThreadPool` (lines 49–63): the shared queue, the two
configuration bounds, and the worker roster `self._workers`. -/
structure ThreadPool (α : Type) where
  queue : BlockingQueue α
  min_workers : Nat
  max_workers : Nat
  workers : List WorkerThread
deriving DecidableEq, Repr

/-- Workers created by the constructor's list comprehension
`[WorkerThread(self._queue) for _ in range(0, self._min_workers)]`, in
creation order, threading the class-wide `Sequence` through. -/
def mkWorkers : Nat → Sequence → List WorkerThread × Sequence
  | 0, s => ([], s)
  | n + 1, s =>
      let r := WorkerThread.new s
      let rest := mkWorkers n r.2
      (r.1 :: rest.1, rest.2)

/-- Embedding of `ThreadPool.__init__` (lines 51–56): fresh empty queue,
record the bounds, create `min_workers` workers.  The class-wide worker
`Sequence` is passed and returned explicitly.  Note: the constructor
performs no validation of `min_workers` against `max_workers`. -/
def ThreadPool.init (α : Type) (min_workers max_workers : Nat) (s : Sequence) :
    ThreadPool α × Sequence :=
  let r := mkWorkers min_workers s
  (⟨⟨[]⟩, min_workers, max_workers, r.1⟩, r.2)

/-- Embedding of `ThreadPool.submit` (lines 58–63): enqueue the action,
obtaining `queue_size`; then, under the pool lock, if `queue_size > 5`
and the roster is below `max_workers`, create one more worker and append
it to the roster. -/
def ThreadPool.submit {α : Type} (p : ThreadPool α) (action : α) (s : Sequence) :
    ThreadPool α × Sequence :=
  let e := p.queue.enqueue action
  let queue_size := e.2.1
  if queue_size > 5 ∧ p.workers.length < p.max_workers then
    let r := WorkerThread.new s
    ({ p with queue := e.1, workers := p.workers ++ [r.1] }, r.2)
  else
    ({ p with queue := e.1 }, s)

/-- Interleaving semantics of a running pool: at any moment either some
caller thread completes a `submit` (atomic here: the enqueue and the
scaling check happen back to back), or some worker thread completes a
`dequeue`, removing the head of a non-empty queue. -/
inductive PoolStep {α : Type} :
    ThreadPool α × Sequence → ThreadPool α × Sequence → Prop
  | submit (p : ThreadPool α) (s : Sequence) (action : α) :
      PoolStep (p, s) (p.submit action s)
  | take (p : ThreadPool α) (s : Sequence) (a : α) (q : BlockingQueue α) :
      p.queue.dequeue = some (a, q) →
      PoolStep (p, s) ({ p with queue := q }, s)

/-- States a pool can be in, starting from a fresh
`ThreadPool(min_workers, max_workers)` with worker sequence `s0`. -/
inductive PoolReachable {α : Type} (min_workers max_workers : Nat) (s0 : Sequence) :
    ThreadPool α × Sequence → Prop
  | init : PoolReachable min_workers max_workers s0
      (ThreadPool.init α min_workers max_workers s0)
  | step {st st' : ThreadPool α × Sequence} :
      PoolReachable min_workers max_workers s0 st → PoolStep st st' →
      PoolReachable min_workers max_workers s0 st'

/-! ## Fine-grained interleaving model of the running pool

For the ordering claim the coarse `PoolStep` relation is too blunt: in
the source a worker's loop iteration is not one atomic block.  The
`dequeue` call itself is atomic (it holds the queue lock), but the
worker then releases the lock, looks up its color and prints *before*
invoking the action; the scheduler may interleave other threads between
the `popleft` and the `action()` call.  The model below therefore
splits a worker iteration into two steps: `dequeue` (atomic removal of
the head, line 102) and `start` (the later instant at which the worker
begins executing the dequeued action, line 105).  Actions are
identified by their submission index 0, 1, 2, … . -/

/-- Global state of queue plus workers: `submitted` counts `submit`
calls so far (actions are numbered in submission order), `queue` holds
the pending action numbers head first, `holding` has one slot per
worker (`some a` = worker has dequeued `a` but not yet begun executing
it), `dequeued` lists actions in the order they were removed from the
queue, and `started` lists actions in the order their execution
began. -/
structure SysState where
  submitted : Nat
  queue : List Nat
  holding : List (Option Nat)
  dequeued : List Nat
  started : List Nat
deriving DecidableEq, Repr

/-- Initial state: nothing submitted, `workers` idle workers. -/
def SysState.init (workers : Nat) : SysState :=
  ⟨0, [], List.replicate workers none, [], []⟩

/-- One scheduler step of the running system. -/
inductive SysStep : SysState → SysState → Prop
  | submit (s : SysState) :
      SysStep s ⟨s.submitted + 1, s.queue ++ [s.submitted], s.holding,
        s.dequeued, s.started⟩
  | spawn (s : SysState) :
      SysStep s ⟨s.submitted, s.queue, s.holding ++ [none], s.dequeued,
        s.started⟩
  | dequeue (s : SysState) (i a : Nat) (rest : List Nat) :
      s.holding.get? i = some none →
      s.queue = a :: rest →
      SysStep s ⟨s.submitted, rest, s.holding.set i (some a),
        s.dequeued ++ [a], s.started⟩
  | start (s : SysState) (i a : Nat) :
      s.holding.get? i = some (some a) →
      SysStep s ⟨s.submitted, s.queue, s.holding.set i none,
        s.dequeued, s.started ++ [a]⟩

/-- States reachable from a fresh system with `workers` initial
workers. -/
inductive SysReachable (workers : Nat) : SysState → Prop
  | init : SysReachable workers (SysState.init workers)
  | step {s s' : SysState} :
      SysReachable workers s → SysStep s s' → SysReachable workers s'

/-- Global FIFO *start* order, as the spec states it: if `a` was
enqueued strictly before `b` (i.e. `a < b` as submission numbers), then
`b`'s execution has begun only if `a`'s has. -/
def FifoStart (s : SysState) : Prop :=
  ∀ a b : Nat, a < b → b ∈ s.started → a ∈ s.started

/-! ## Helper lemmas -/

theorem enqueueAll_queue {α : Type} (xs : List α) (l : List α) :
    (BlockingQueue.enqueueAll ⟨l⟩ xs).queue = l ++ xs := by
  induction xs generalizing l with
  | nil => simp [BlockingQueue.enqueueAll]
  | cons x xs ih =>
      have h : BlockingQueue.enqueueAll (⟨l⟩ : BlockingQueue α) (x :: xs)
          = BlockingQueue.enqueueAll ⟨l ++ [x]⟩ xs := rfl
      rw [h, ih]
      simp

theorem dequeueAll_eq {α : Type} (l : List α) :
    BlockingQueue.dequeueAll (⟨l⟩ : BlockingQueue α) = l := by
  induction l with
  | nil => simp [BlockingQueue.dequeueAll]
  | cons a rest ih => simp [BlockingQueue.dequeueAll, ih]

theorem mkWorkers_length (n : Nat) (s : Sequence) :
    (mkWorkers n s).1.length = n := by
  induction n generalizing s with
  | zero => rfl
  | succ n ih => simp [mkWorkers, ih]

theorem values_eq (c k : Nat) :
    Sequence.values ⟨c⟩ k = (List.range k).map (fun i => c + 1 + i) := by
  induction k generalizing c with
  | zero => rfl
  | succ k ih =>
      have h : Sequence.values (⟨c⟩ : Sequence) (k + 1)
          = (c + 1) :: Sequence.values ⟨c + 1⟩ k := rfl
      rw [h, ih, List.range_succ_eq_map, List.map_cons, List.map_map]
      have h2 : ((fun i => c + 1 + i) ∘ Nat.succ) = fun i => c + 1 + 1 + i := by
        funext i
        simp [Function.comp]
        omega
      rw [h2]

theorem submit_workers_of_grow {α : Type} (p : ThreadPool α) (a : α) (s : Sequence)
    (hc : p.queue.queue.length + 1 > 5 ∧ p.workers.length < p.max_workers) :
    (p.submit a s).1.workers = p.workers ++ [(WorkerThread.new s).1] := by
  simp only [ThreadPool.submit, BlockingQueue.enqueue]
  rw [if_pos]
  simpa using hc

theorem submit_workers_of_stay {α : Type} (p : ThreadPool α) (a : α) (s : Sequence)
    (hc : ¬(p.queue.queue.length + 1 > 5 ∧ p.workers.length < p.max_workers)) :
    (p.submit a s).1.workers = p.workers := by
  simp only [ThreadPool.submit, BlockingQueue.enqueue]
  rw [if_neg]
  simpa using hc

theorem submit_workers {α : Type} (p : ThreadPool α) (a : α) (s : Sequence) :
    (p.submit a s).1.workers =
      if p.queue.queue.length + 1 > 5 ∧ p.workers.length < p.max_workers
      then p.workers ++ [(WorkerThread.new s).1]
      else p.workers := by
  by_cases hc : p.queue.queue.length + 1 > 5 ∧ p.workers.length < p.max_workers
  · rw [if_pos hc, submit_workers_of_grow p a s hc]
  · rw [if_neg hc, submit_workers_of_stay p a s hc]

theorem submit_fields {α : Type} (p : ThreadPool α) (a : α) (s : Sequence) :
    (p.submit a s).1.min_workers = p.min_workers
    ∧ (p.submit a s).1.max_workers = p.max_workers := by
  simp only [ThreadPool.submit]
  split
  · exact ⟨rfl, rfl⟩
  · exact ⟨rfl, rfl⟩

theorem poolStep_workers_mono {α : Type} (st st' : ThreadPool α × Sequence)
    (h : PoolStep st st') : st.1.workers.length ≤ st'.1.workers.length := by
  cases h with
  | submit p s a =>
      by_cases hc : p.queue.queue.length + 1 > 5 ∧ p.workers.length < p.max_workers
      · rw [submit_workers_of_grow p a s hc]
        simp
      · rw [submit_workers_of_stay p a s hc]
  | take p s a q hq => exact Nat.le_refl _

theorem poolReachable_invariant {α : Type} (mn mx : Nat) (s0 : Sequence)
    (st : ThreadPool α × Sequence) (h : PoolReachable mn mx s0 st) :
    st.1.min_workers = mn ∧ st.1.max_workers = mx
    ∧ mn ≤ st.1.workers.length ∧ st.1.workers.length ≤ max mn mx := by
  induction h with
  | init =>
      refine ⟨rfl, rfl, ?_, ?_⟩
      · simp [ThreadPool.init, mkWorkers_length]
      · simp only [ThreadPool.init, mkWorkers_length]
        exact Nat.le_max_left mn mx
  | step hr hstep ih =>
      obtain ⟨h1, h2, h3, h4⟩ := ih
      cases hstep with
      | submit p s a =>
          have hf := submit_fields p a s
          have h3' : mn ≤ p.workers.length := h3
          have h4' : p.workers.length ≤ max mn mx := h4
          refine ⟨hf.1.trans h1, hf.2.trans h2, ?_, ?_⟩
          · by_cases hc : p.queue.queue.length + 1 > 5 ∧ p.workers.length < p.max_workers
            · rw [submit_workers_of_grow p a s hc]
              simp only [List.length_append, List.length_cons, List.length_nil]
              omega
            · rw [submit_workers_of_stay p a s hc]
              exact h3'
          · by_cases hc : p.queue.queue.length + 1 > 5 ∧ p.workers.length < p.max_workers
            · rw [submit_workers_of_grow p a s hc]
              simp only [List.length_append, List.length_cons, List.length_nil]
              have h5 := hc.2
              have h6 : p.max_workers = mx := h2
              have h7 := Nat.le_max_right mn mx
              omega
            · rw [submit_workers_of_stay p a s hc]
              exact h4'
      | take p s a q hq => exact ⟨h1, h2, h3, h4⟩

theorem color_mapping_none (j : Nat) (h : 10 < j) :
    WorkerThread.color_mapping j = none := by
  obtain ⟨k, rfl⟩ : ∃ k, j = k + 11 := ⟨j - 11, by omega⟩
  rfl

theorem color_mapping_isSome (j : Nat) :
    (WorkerThread.color_mapping j).isSome = true ↔ 1 ≤ j ∧ j ≤ 10 := by
  rcases Nat.lt_or_ge j 11 with h | h
  · interval_cases j <;> simp [WorkerThread.color_mapping]
  · rw [color_mapping_none j (by omega)]
    simp
    omega

theorem sysReachable_invariant (w : Nat) (s : SysState) (h : SysReachable w s) :
    s.dequeued ++ s.queue = List.range s.submitted := by
  induction h with
  | init => rfl
  | @step s1 s2 hr hstep ih =>
      cases hstep with
      | submit =>
          show s1.dequeued ++ (s1.queue ++ [s1.submitted]) = List.range (s1.submitted + 1)
          rw [List.range_succ, ← ih, List.append_assoc]
      | spawn => exact ih
      | dequeue i a rest hhold hq =>
          show (s1.dequeued ++ [a]) ++ rest = List.range s1.submitted
          rw [List.append_assoc, List.singleton_append, ← hq]
          exact ih
      | start i a hhold => exact ih

theorem badState_reachable :
    SysReachable 2 ⟨2, [], [some 0, none], [0, 1], [1]⟩ := by
  have h0 : SysReachable 2 (SysState.init 2) := SysReachable.init
  have h1 : SysReachable 2 ⟨1, [0], [none, none], [], []⟩ :=
    SysReachable.step h0 (SysStep.submit (SysState.init 2))
  have h2 : SysReachable 2 ⟨2, [0, 1], [none, none], [], []⟩ :=
    SysReachable.step h1 (SysStep.submit ⟨1, [0], [none, none], [], []⟩)
  have h3 : SysReachable 2 ⟨2, [1], [some 0, none], [0], []⟩ :=
    SysReachable.step h2
      (SysStep.dequeue ⟨2, [0, 1], [none, none], [], []⟩ 0 0 [1] rfl rfl)
  have h4 : SysReachable 2 ⟨2, [], [some 0, some 1], [0, 1], []⟩ :=
    SysReachable.step h3
      (SysStep.dequeue ⟨2, [1], [some 0, none], [0], []⟩ 1 1 [] rfl rfl)
  exact SysReachable.step h4
    (SysStep.start ⟨2, [], [some 0, some 1], [0, 1], []⟩ 1 1 rfl)

/-! ## Claim theorems -/

/-- C3: on every non-empty queue state, `dequeue` removes and returns the
head (oldest enqueued) action, leaving the rest; the queue is strict
FIFO (enqueueing a list of actions into an empty queue and then draining
it returns exactly that list, in order); on an empty queue `dequeue`
produces no value at all — the caller stays blocked in the wait loop —
rather than returning a result or raising. -/
theorem dequeue_fifo (α : Type) (a : α) (rest : List α) (xs : List α) :
    BlockingQueue.dequeue (⟨a :: rest⟩ : BlockingQueue α) = some (a, ⟨rest⟩)
    ∧ BlockingQueue.dequeue (⟨[]⟩ : BlockingQueue α) = none
    ∧ BlockingQueue.dequeueAll (BlockingQueue.enqueueAll ⟨[]⟩ xs) = xs := by
  refine ⟨rfl, rfl, ?_⟩
  have h : BlockingQueue.enqueueAll (⟨[]⟩ : BlockingQueue α) xs
      = ⟨(BlockingQueue.enqueueAll (⟨[]⟩ : BlockingQueue α) xs).queue⟩ := rfl
  rw [h, enqueueAll_queue]
  simpa using dequeueAll_eq xs

/-- C4: for every queue state and action, `enqueue` appends the action
at the tail, always succeeds (it is a total function — there is no
capacity bound under which it could fail), and returns the size of the
queue immediately after the append, i.e. the previous size plus one. -/
theorem enqueue_appends (α : Type) (q : BlockingQueue α) (a : α) :
    (q.enqueue a).1.queue = q.queue ++ [a]
    ∧ (q.enqueue a).2.1 = q.queue.length + 1 := by
  refine ⟨rfl, ?_⟩
  simp [BlockingQueue.enqueue]

/-- C5: an `enqueue` call invokes `notify_all` (waking every thread
blocked on the empty-queue condition) exactly when the size of the queue
immediately after the append is 1, i.e. exactly when the queue was empty
before the call; any call that results in a size greater than 1 notifies
no one. -/
theorem enqueue_notify_iff_first (α : Type) (q : BlockingQueue α) (a : α) :
    ((q.enqueue a).2.2 = true ↔ (q.enqueue a).2.1 = 1)
    ∧ ((q.enqueue a).2.2 = true ↔ q.queue = []) := by
  constructor
  · simp [BlockingQueue.enqueue]
  · simp [BlockingQueue.enqueue]

/-- C7: for every `min_workers` and `max_workers`, the pool constructor
immediately creates exactly `min_workers` workers (each `WorkerThread`
calls `self.start()` inside its own constructor, so each is already
running), and so the roster size equals `min_workers` when the
constructor returns, before any `submit` has occurred; the queue starts
empty and the two bounds are stored unchanged. -/
theorem init_roster_size (α : Type) (mn mx : Nat) (s : Sequence) :
    (ThreadPool.init α mn mx s).1.workers.length = mn
    ∧ (ThreadPool.init α mn mx s).1.min_workers = mn
    ∧ (ThreadPool.init α mn mx s).1.max_workers = mx
    ∧ (ThreadPool.init α mn mx s).1.queue.queue = [] := by
  refine ⟨?_, rfl, rfl, rfl⟩
  simp [ThreadPool.init, mkWorkers_length]

/-- C8: the `Sequence` counter is strictly monotonically increasing:
each `next_value` call returns the previous value plus one, a later call
returns strictly more than an earlier one, and starting from the initial
state (counter 0) the values handed out over `k` calls are exactly
`1, 2, …, k` — pairwise distinct, so every worker identity drawn from
the sequence is unique. -/
theorem sequence_strictly_increasing (s : Sequence) (k : Nat) :
    s.next_value.1 = s.current_value + 1
    ∧ s.next_value.1 < s.next_value.2.next_value.1
    ∧ Sequence.values ⟨0⟩ k = (List.range k).map (fun i => i + 1)
    ∧ (s.values k).Pairwise (· < ·) := by
  refine ⟨rfl, by simp [Sequence.next_value], ?_, ?_⟩
  · rw [values_eq]
    have h : (fun i => 0 + 1 + i) = fun i : Nat => i + 1 := by
      funext i
      omega
    rw [h]
  · obtain ⟨c⟩ := s
    rw [values_eq]
    refine List.Pairwise.map _ (fun a b hab => ?_) (List.pairwise_lt_range k)
    omega

/-- C1 is false as stated: the constructor performs no validation, so a
pool constructed with `min_workers = 2, max_workers = 1` already
violates `|roster| ≤ max_workers` the moment construction returns — the
roster has 2 workers while `max_workers` is 1. -/
theorem roster_bounds_counterexample :
    ¬ ∀ (mn mx : Nat) (s0 : Sequence) (st : ThreadPool Outcome × Sequence),
        PoolReachable mn mx s0 st →
        mn ≤ st.1.workers.length ∧ st.1.workers.length ≤ mx := by
  intro h
  have h2 := h 2 1 ⟨0⟩ (ThreadPool.init Outcome 2 1 ⟨0⟩) PoolReachable.init
  have h3 : (ThreadPool.init Outcome 2 1 ⟨0⟩).1.workers.length = 2 := by decide
  omega

/-- C1 (amended): provided `min_workers ≤ max_workers`, every state the
pool can reach — under any interleaving of `submit` calls and worker
dequeues — satisfies `min_workers ≤ |roster| ≤ max_workers`. -/
theorem roster_bounds {α : Type} (mn mx : Nat) (s0 : Sequence)
    (st : ThreadPool α × Sequence) (hmnmx : mn ≤ mx)
    (h : PoolReachable mn mx s0 st) :
    mn ≤ st.1.workers.length ∧ st.1.workers.length ≤ mx := by
  have hi := poolReachable_invariant mn mx s0 st h
  omega

/-- Witness for C1 (amended) at `min_workers = 3, max_workers = 10`,
evaluated at the freshly constructed pool. -/
theorem roster_bounds_witness :
    3 ≤ (ThreadPool.init Outcome 3 10 ⟨0⟩).1.workers.length
    ∧ (ThreadPool.init Outcome 3 10 ⟨0⟩).1.workers.length ≤ 10 :=
  roster_bounds 3 10 ⟨0⟩ (ThreadPool.init Outcome 3 10 ⟨0⟩) (by decide)
    PoolReachable.init

/-- C2: a `submit` call appends exactly one freshly created worker to
the roster if and only if the queue size returned by the enqueue (the
previous length plus one) exceeds 5 and the roster is strictly below
`max_workers`; otherwise the roster is left untouched.  Consequently a
single `submit` grows the roster by at most one, and no step of the
running pool — `submit` or a worker dequeue — ever shrinks it, so the
roster size is monotonically non-decreasing over the pool's
lifetime. -/
theorem submit_scaling {α : Type} (p : ThreadPool α) (a : α) (s : Sequence) :
    ((p.submit a s).1.workers =
      if p.queue.queue.length + 1 > 5 ∧ p.workers.length < p.max_workers
      then p.workers ++ [(WorkerThread.new s).1]
      else p.workers)
    ∧ p.workers.length ≤ (p.submit a s).1.workers.length
    ∧ (p.submit a s).1.workers.length ≤ p.workers.length + 1
    ∧ ∀ st st' : ThreadPool α × Sequence, PoolStep st st' →
        st.1.workers.length ≤ st'.1.workers.length := by
  refine ⟨submit_workers p a s, poolStep_workers_mono (p, s) _ (PoolStep.submit p s a),
    ?_, fun st st' h => poolStep_workers_mono st st' h⟩
  by_cases hc : p.queue.queue.length + 1 > 5 ∧ p.workers.length < p.max_workers
  · rw [submit_workers_of_grow p a s hc]
    simp
  · rw [submit_workers_of_stay p a s hc]
    exact Nat.le_succ _

/-- Witness for C2: a pool with 3 workers, `max_workers = 10` and 5
queued actions grows to exactly 4 workers on the next `submit` (queue
size becomes 6 > 5), the new worker drawing the next sequence value. -/
theorem submit_scaling_witness :
    ((⟨⟨[Outcome.ok, Outcome.ok, Outcome.ok, Outcome.ok, Outcome.ok]⟩, 3, 10,
        [⟨1⟩, ⟨2⟩, ⟨3⟩]⟩ : ThreadPool Outcome).submit Outcome.ok ⟨3⟩).1.workers
      = [⟨1⟩, ⟨2⟩, ⟨3⟩, ⟨4⟩] := by
  have h := submit_scaling
    (⟨⟨[Outcome.ok, Outcome.ok, Outcome.ok, Outcome.ok, Outcome.ok]⟩, 3, 10,
      [⟨1⟩, ⟨2⟩, ⟨3⟩]⟩ : ThreadPool Outcome) Outcome.ok ⟨3⟩
  rw [h.1]
  decide

/-- C6 is false as stated: although actions are *dequeued* in strict
FIFO order, a worker begins executing its action only after releasing
the queue lock, so the scheduler can interleave two workers between
their `dequeue` and `action()` calls.  Concretely, with two workers and
actions 0 then 1: worker 0 dequeues action 0, worker 1 dequeues
action 1, and worker 1 then begins executing action 1 while worker 0
has not yet begun action 0 — a reachable state whose `started` list
contains 1 but not 0. -/
theorem fifo_start_counterexample :
    ¬ ∀ (w : Nat) (s : SysState), SysReachable w s → FifoStart s := by
  intro h
  have hb := h 2 ⟨2, [], [some 0, none], [0, 1], [1]⟩ badState_reachable
    0 1 (by decide) (by decide)
  exact absurd hb (by decide)

/-- C6 (amended): the FIFO guarantee the code does provide is at the
dequeue: in every reachable state of the running system, the actions
removed from the queue so far, in removal order, followed by the queue's
remaining contents, are exactly the actions in submission order — so if
A was enqueued strictly before B, no worker dequeues B before some
worker has dequeued A.  The instant execution *begins* is not so
ordered (see the counterexample), and completion order is likewise
unconstrained. -/
theorem dequeue_order_fifo (w : Nat) (s : SysState) (h : SysReachable w s) :
    s.dequeued ++ s.queue = List.range s.submitted
    ∧ ∀ a b : Nat, a < b → b ∈ s.dequeued → a ∈ s.dequeued := by
  have hinv := sysReachable_invariant w s h
  refine ⟨hinv, fun a b hab hb => ?_⟩
  have h1 : (s.dequeued ++ s.queue).take s.dequeued.length = s.dequeued :=
    List.take_left _ _
  rw [hinv, List.take_range] at h1
  rw [← h1] at hb ⊢
  rw [List.mem_range] at hb ⊢
  omega

/-- Witness for C6 (amended) at the reachable state of the
counterexample trace: the two dequeued actions, in dequeue order, are
exactly the two submitted actions in submission order. -/
theorem dequeue_order_fifo_witness :
    ([0, 1] : List Nat) ++ [] = List.range 2 :=
  (dequeue_order_fifo 2 ⟨2, [], [some 0, none], [0, 1], [1]⟩
    badState_reachable).1

/-- C9: the worker loop has no try/except, so an action that raises
ends the fetch-execute loop: running a worker (with a valid color, i.e.
sequence number within the color table) on a queue whose actions are
fine up to the first raising one executes exactly the actions before
it, then terminates with the propagated error, leaving every action
after the raising one untouched in the queue — the worker does not
continue to the next dequeue.  (Nothing is surfaced back through
`submit`: `ThreadPool.submit` returns only the updated pool and
sequence states; it has no error channel at all.) -/
theorem run_propagates_action_error (id fuel : Nat) (pre post : List Outcome)
    (hid : (WorkerThread.color_mapping id).isSome = true)
    (hpre : ∀ a ∈ pre, a = Outcome.ok) (hfuel : pre.length < fuel) :
    WorkerThread.run id fuel (pre ++ Outcome.raises :: post)
      = ⟨RunResult.actionError, pre.length, post⟩ := by
  induction pre generalizing fuel with
  | nil =>
      obtain ⟨f, rfl⟩ : ∃ f, fuel = f + 1 := ⟨fuel - 1, by omega⟩
      obtain ⟨c, hc⟩ := Option.isSome_iff_exists.mp hid
      simp [WorkerThread.run, hc]
  | cons a pre ih =>
      obtain ⟨f, rfl⟩ : ∃ f, fuel = f + 1 := ⟨fuel - 1, by omega⟩
      have ha : a = Outcome.ok := hpre a (by simp)
      subst ha
      obtain ⟨c, hc⟩ := Option.isSome_iff_exists.mp hid
      have hih := ih f (fun x hx => hpre x (List.mem_cons_of_mem _ hx))
        (by simp only [List.length_cons] at hfuel; omega)
      simp [WorkerThread.run, hc, hih]

/-- Witness for C9: worker 1 on the queue `[ok, raises, ok]` executes
one action, stops with the propagated error, and leaves `[ok]`
queued. -/
theorem run_propagates_action_error_witness :
    WorkerThread.run 1 3 ([Outcome.ok] ++ Outcome.raises :: [Outcome.ok])
      = ⟨RunResult.actionError, 1, [Outcome.ok]⟩ :=
  run_propagates_action_error 1 3 [Outcome.ok] [Outcome.ok] (by decide)
    (by decide) (by decide)

/-- C10: the color table is a partial map defined for exactly the
worker identities 1 through 10; a worker whose sequence number exceeds
10 finds no entry, so on the first loop iteration that hands it an
action the lookup `self._color_mapping[self.name]` raises `KeyError` —
after the action has been dequeued but before it is executed. -/
theorem color_lookup_keyError (id : Nat) (hid : 10 < id)
    (fuel : Nat) (hfuel : 0 < fuel) (a : Outcome) (q : List Outcome) :
    WorkerThread.color_mapping id = none
    ∧ WorkerThread.run id fuel (a :: q) = ⟨RunResult.keyError, 0, q⟩
    ∧ ∀ j, (WorkerThread.color_mapping j).isSome = true ↔ 1 ≤ j ∧ j ≤ 10 := by
  obtain ⟨f, rfl⟩ : ∃ f, fuel = f + 1 := ⟨fuel - 1, by omega⟩
  have hn := color_mapping_none id hid
  exact ⟨hn, by simp [WorkerThread.run, hn], color_mapping_isSome⟩

/-- Witness for C10: worker 11 (the first identity outside the color
table, reached e.g. when `max_workers > 10`) hits the `KeyError` on its
first dequeue, executing nothing. -/
theorem color_lookup_keyError_witness :
    WorkerThread.run 11 1 [Outcome.ok] = ⟨RunResult.keyError, 0, []⟩ :=
  (color_lookup_keyError 11 (by decide) 1 (by decide) Outcome.ok []).2.1

end CustomThreadPool
